import Mathlib

/-!
Verification of the fund net-flow ETL (fundos_capt.py).

The script's core is modelled shallowly over lists:

* a raw row after type normalisation (lines 95-105 of the source) is a
  `FlowRecord`; `pd.to_datetime(..., errors="coerce")` turns an unparseable
  date into NaT, modelled as `none`, and `pd.to_numeric(..., errors="coerce")`
  turns an invalid flow into NaN, modelled as `none`;
* calendar dates are integer day numbers (pandas timestamps are integer
  nanosecond counts; only day granularity is used by the script);
* `df_agg` (lines 118-127) is the groupby over (CNPJ_FUNDO_CLASSE,
  Data_Comptc) with a summed Captacao_Liquida: one output row per distinct
  non-null key, rows sorted by key, null flows skipped by the sum;
* the duplicate-detection stage (lines 136-152) is `validateStage`;
* the per-fund rolling sums (lines 162-199) are `windowCalc` / `windowAll`:
  an offset window of pandas (`rolling("30D", min_periods=1)`, default
  `closed="right"`) sums, at a row of date d, the rows of the current prefix
  whose date lies in the half-open interval (d - W, d];
* the latest-date snapshot (lines 273-276) is `df_filtrado`, with `max()` of
  an empty column giving NaT (`none`) and every comparison with NaT false.
-/

/-- A raw flow record after type normalisation: `date` is `none` when
DT_COMPTC failed to parse (NaT), `net_flow` is `none` when Captacao_Liquida
was not numeric (NaN). -/
structure FlowRecord where
  entity_id : String
  date : Option Int
  net_flow : Option Int
  deriving DecidableEq

/-- An aggregated row: one net flow per fund and day, both key fields
non-null. -/
structure AggRecord where
  entity_id : String
  date : Int
  net_flow : Int
  deriving DecidableEq

/-- Lexicographic order on the grouping key (CNPJ_FUNDO_CLASSE, Data_Comptc),
the order groupby sorts group keys in. -/
def keyLt (a b : String × Int) : Prop :=
  a.1 < b.1 ∨ (a.1 = b.1 ∧ a.2 < b.2)

instance (a b : String × Int) : Decidable (keyLt a b) := by
  unfold keyLt; infer_instance

/-- Insert a key into a sorted duplicate-free key list, keeping it sorted
and duplicate-free. -/
def insertKey (k : String × Int) : List (String × Int) → List (String × Int)
  | [] => [k]
  | k' :: ks =>
    if k = k' then k' :: ks
    else if keyLt k k' then k :: k' :: ks
    else k' :: insertKey k ks

/-- The sorted list of the distinct keys occurring in a collection. -/
def sortedKeys (l : List (String × Int)) : List (String × Int) :=
  l.foldr insertKey []

/-- The grouping key of a raw record: `none` when the date failed to parse
(groupby silently drops rows whose key is null). -/
def keyOf (r : FlowRecord) : Option (String × Int) :=
  r.date.map fun d => (r.entity_id, d)

/-- Group sum for one key: `agg` with "sum" skips null values and returns 0
for an all-null group. -/
def aggValue (l : List FlowRecord) (k : String × Int) : Int :=
  ((l.filter fun r => r.entity_id = k.1 ∧ r.date = some k.2).filterMap
    (·.net_flow)).sum

/-- Lines 118-122 of the source: groupby (CNPJ_FUNDO_CLASSE, Data_Comptc)
with a summed Captacao_Liquida — one output row per distinct non-null key,
rows sorted by key. -/
def df_agg (l : List FlowRecord) : List AggRecord :=
  (sortedKeys (l.filterMap keyOf)).map fun k => ⟨k.1, k.2, aggValue l k⟩

theorem keyLt_irrefl (k : String × Int) : ¬ keyLt k k := by
  simp [keyLt]

theorem keyLt_ne {a b : String × Int} (h : keyLt a b) : a ≠ b := by
  rintro rfl
  exact keyLt_irrefl a h

theorem keyLt_trans {a b c : String × Int} (h1 : keyLt a b) (h2 : keyLt b c) :
    keyLt a c := by
  rcases h1 with h1 | ⟨e1, h1⟩ <;> rcases h2 with h2 | ⟨e2, h2⟩
  · exact Or.inl (lt_trans h1 h2)
  · exact Or.inl (by rw [← e2]; exact h1)
  · exact Or.inl (by rw [e1]; exact h2)
  · exact Or.inr ⟨e1.trans e2, lt_trans h1 h2⟩

theorem keyLt_or {a b : String × Int} (h : a ≠ b) : keyLt a b ∨ keyLt b a := by
  rcases lt_trichotomy a.1 b.1 with h1 | h1 | h1
  · exact Or.inl (Or.inl h1)
  · rcases lt_trichotomy a.2 b.2 with h2 | h2 | h2
    · exact Or.inl (Or.inr ⟨h1, h2⟩)
    · exact absurd (Prod.ext_iff.mpr ⟨h1, h2⟩) h
    · exact Or.inr (Or.inr ⟨h1.symm, h2⟩)
  · exact Or.inr (Or.inl h1)

theorem mem_insertKey {x k : String × Int} {ks : List (String × Int)} :
    x ∈ insertKey k ks ↔ x = k ∨ x ∈ ks := by
  induction ks with
  | nil => simp [insertKey]
  | cons k' ks ih =>
    by_cases h1 : k = k'
    · subst h1
      rw [insertKey, if_pos rfl]
      constructor
      · exact fun h => Or.inr h
      · rintro (rfl | h)
        · exact List.mem_cons_self _ _
        · exact h
    · by_cases h2 : keyLt k k'
      · rw [insertKey, if_neg h1, if_pos h2]
        simp only [List.mem_cons]
      · rw [insertKey, if_neg h1, if_neg h2]
        simp only [List.mem_cons, ih]
        tauto

theorem pairwise_insertKey {k : String × Int} {ks : List (String × Int)}
    (h : ks.Pairwise keyLt) : (insertKey k ks).Pairwise keyLt := by
  induction ks with
  | nil => simp [insertKey]
  | cons k' ks ih =>
    rw [List.pairwise_cons] at h
    by_cases h1 : k = k'
    · subst h1
      rw [insertKey, if_pos rfl, List.pairwise_cons]
      exact ⟨h.1, h.2⟩
    · by_cases h2 : keyLt k k'
      · rw [insertKey, if_neg h1, if_pos h2]
        rw [List.pairwise_cons]
        refine ⟨?_, List.pairwise_cons.mpr ⟨h.1, h.2⟩⟩
        intro x hx
        rcases List.mem_cons.mp hx with rfl | hx
        · exact h2
        · exact keyLt_trans h2 (h.1 x hx)
      · rw [insertKey, if_neg h1, if_neg h2, List.pairwise_cons]
        refine ⟨?_, ih h.2⟩
        intro x hx
        rcases mem_insertKey.mp hx with rfl | hx
        · rcases keyLt_or h1 with h3 | h3
          · exact absurd h3 h2
          · exact h3
        · exact h.1 x hx

theorem sortedKeys_pairwise (l : List (String × Int)) :
    (sortedKeys l).Pairwise keyLt := by
  induction l with
  | nil => simp [sortedKeys]
  | cons a l ih => exact pairwise_insertKey ih

theorem mem_sortedKeys {x : String × Int} {l : List (String × Int)} :
    x ∈ sortedKeys l ↔ x ∈ l := by
  induction l with
  | nil => simp [sortedKeys]
  | cons a l ih =>
    show x ∈ insertKey a (sortedKeys l) ↔ _
    rw [mem_insertKey, ih, List.mem_cons]

theorem insertKey_of_forall_lt {k : String × Int} {ks : List (String × Int)}
    (h : ∀ x ∈ ks, keyLt k x) : insertKey k ks = k :: ks := by
  cases ks with
  | nil => rfl
  | cons k' ks =>
    have hlt : keyLt k k' := h k' (List.mem_cons_self _ _)
    rw [insertKey, if_neg (keyLt_ne hlt), if_pos hlt]

theorem sortedKeys_eq_self {l : List (String × Int)}
    (h : l.Pairwise keyLt) : sortedKeys l = l := by
  induction l with
  | nil => rfl
  | cons a l ih =>
    rw [List.pairwise_cons] at h
    show insertKey a (sortedKeys l) = a :: l
    rw [ih h.2]
    exact insertKey_of_forall_lt h.1

/-- A windowed row: an aggregated row together with its three trailing
window sums (columns Captacao_30D / Captacao_90D / Captacao_180D). -/
structure WinRecord where
  entity_id : String
  date : Int
  net_flow : Int
  sum30 : Int
  sum90 : Int
  sum180 : Int
  deriving DecidableEq

/-- One pandas offset-window sum: at a row of date `d`,
`rolling("WD", min_periods=1).sum()` (default `closed="right"` for offset
windows) sums the rows of the current prefix whose date lies in the
half-open interval (d - W, d]. Every prefix row has date ≤ d, so only the
left bound is tested. -/
def rollingSumAt (W d : Int) (pre : List AggRecord) : Int :=
  ((pre.filter fun t => d - W < t.date).map (·.net_flow)).sum

/-- The windowed row built from an aggregated row and the series prefix
ending at it: the three rolling columns of lines 175-196. -/
def mkWin (r : AggRecord) (pre : List AggRecord) : WinRecord :=
  ⟨r.entity_id, r.date, r.net_flow,
    rollingSumAt 30 r.date pre, rollingSumAt 90 r.date pre,
    rollingSumAt 180 r.date pre⟩

/-- Walk one fund's date-sorted series; `seen` is the prefix already
processed, and each row's window sums are evaluated over the prefix ending
at that row. -/
def windowedAux (seen : List AggRecord) : List AggRecord → List WinRecord
  | [] => []
  | r :: rs => mkWin r (seen ++ [r]) :: windowedAux (seen ++ [r]) rs

/-- The Rolling Window Calculator on one fund's date-sorted series. -/
def windowCalc (s : List AggRecord) : List WinRecord :=
  windowedAux [] s

/-- Funds in frame order (the frame is sorted by key, so this is sorted
fund order). -/
def entityIds (l : List AggRecord) : List String :=
  (l.map (·.entity_id)).dedup

/-- One fund's rows, in frame order. -/
def series (e : String) (l : List AggRecord) : List AggRecord :=
  l.filter fun r => r.entity_id = e

/-- Lines 162-199 of the source: sort by (fund, date) then compute the three
rolling columns per fund. -/
def windowAll (l : List AggRecord) : List WinRecord :=
  (entityIds l).flatMap fun e => windowCalc (series e l)

/-- Selects one of the three window columns by window size. -/
def WinRecord.sumW (o : WinRecord) (W : Int) : Int :=
  if W = 30 then o.sum30 else if W = 90 then o.sum90 else o.sum180

/-- An entity series sorted strictly ascending by date (dates are unique
within a fund after aggregation). -/
def SortedByDate (s : List AggRecord) : Prop :=
  s.Pairwise fun a b => a.date < b.date

instance (s : List AggRecord) : Decidable (SortedByDate s) := by
  unfold SortedByDate; infer_instance

/-- Line 273 of the source: `df["Data_Comptc"].max()`; the maximum of an
empty column is NaT, modelled as `none`. -/
def data_maxima : List WinRecord → Option Int
  | [] => none
  | r :: rs =>
    match data_maxima rs with
    | none => some r.date
    | some m => some (max r.date m)

/-- Line 276 of the source: keep the rows whose date equals the global
maximum; a comparison with NaT is false, so an empty frame stays empty. -/
def df_filtrado (l : List WinRecord) : List WinRecord :=
  l.filter fun r => data_maxima l = some r.date

/-- Line 137 of the source: the number of rows sharing one key. -/
def keyCount (l : List AggRecord) (k : String × Int) : Nat :=
  (l.filter fun r => r.entity_id = k.1 ∧ r.date = k.2).length

/-- Lines 137-138 of the source: how many (fund, date) combinations occur
more than once in the aggregated frame. -/
def n_duplicados (l : List AggRecord) : Nat :=
  ((sortedKeys (l.map fun r => (r.entity_id, r.date))).filter fun k =>
    1 < keyCount l k).length

/-- View an aggregated row as a raw record again (both fields non-null). -/
def toFlow (r : AggRecord) : FlowRecord :=
  ⟨r.entity_id, some r.date, some r.net_flow⟩

/-- Lines 140-152 of the source: if duplicate keys were detected after
aggregation, aggregate once more, otherwise keep the frame unchanged. -/
def validateStage (l : List AggRecord) : List AggRecord :=
  if 0 < n_duplicados l then df_agg (l.map toFlow) else l

theorem windowedAux_getElem? (seen s : List AggRecord) (i : Nat) :
    (windowedAux seen s)[i]? =
      s[i]?.map fun r => mkWin r (seen ++ s.take (i + 1)) := by
  induction s generalizing seen i with
  | nil => simp [windowedAux]
  | cons r rs ih =>
    cases i with
    | zero =>
      simp [windowedAux, List.take_succ_cons]
    | succ n =>
      rw [windowedAux, List.getElem?_cons_succ, List.getElem?_cons_succ, ih]
      simp [List.take_succ_cons, List.append_assoc]

theorem windowCalc_getElem? (s : List AggRecord) (i : Nat) :
    (windowCalc s)[i]? = s[i]?.map fun r => mkWin r (s.take (i + 1)) := by
  simpa [windowCalc] using windowedAux_getElem? [] s i

theorem date_le_of_mem_take {s : List AggRecord} (hs : SortedByDate s)
    {i : Nat} {r : AggRecord} (hr : s[i]? = some r) :
    ∀ t ∈ s.take (i + 1), t.date ≤ r.date := by
  induction s generalizing i with
  | nil => simp at hr
  | cons a as ih =>
    rw [SortedByDate, List.pairwise_cons] at hs
    cases i with
    | zero =>
      rw [List.getElem?_cons_zero, Option.some.injEq] at hr
      subst hr
      intro t ht
      rw [List.take_succ_cons, List.take_zero] at ht
      rcases List.mem_cons.mp ht with rfl | ht
      · exact le_refl _
      · simp at ht
    | succ n =>
      rw [List.getElem?_cons_succ] at hr
      intro t ht
      rw [List.take_succ_cons, List.mem_cons] at ht
      rcases ht with rfl | ht
      · exact le_of_lt (hs.1 r (List.getElem?_mem hr))
      · exact ih hs.2 hr t ht

theorem date_lt_of_mem_drop {s : List AggRecord} (hs : SortedByDate s)
    {i : Nat} {r : AggRecord} (hr : s[i]? = some r) :
    ∀ t ∈ s.drop (i + 1), r.date < t.date := by
  induction s generalizing i with
  | nil => simp at hr
  | cons a as ih =>
    rw [SortedByDate, List.pairwise_cons] at hs
    cases i with
    | zero =>
      rw [List.getElem?_cons_zero, Option.some.injEq] at hr
      subst hr
      intro t ht
      rw [List.drop_succ_cons, List.drop_zero] at ht
      exact hs.1 t ht
    | succ n =>
      rw [List.getElem?_cons_succ] at hr
      intro t ht
      rw [List.drop_succ_cons] at ht
      exact ih hs.2 hr t ht

theorem rollingSumAt_take_eq {s : List AggRecord} (hs : SortedByDate s)
    {i : Nat} {r : AggRecord} (hr : s[i]? = some r) (W : Int) :
    rollingSumAt W r.date (s.take (i + 1)) =
      ((s.filter fun t => r.date - W < t.date ∧ t.date ≤ r.date).map
        (·.net_flow)).sum := by
  have h1 := date_le_of_mem_take hs hr
  have h2 := date_lt_of_mem_drop hs hr
  conv_rhs => rw [← List.take_append_drop (i + 1) s]
  rw [List.filter_append]
  have hdrop : ((s.drop (i + 1)).filter
      fun t => decide (r.date - W < t.date ∧ t.date ≤ r.date)) = [] := by
    rw [List.filter_eq_nil_iff]
    intro t ht
    simp only [decide_eq_true_eq, not_and, not_le]
    intro _
    exact h2 t ht
  have htake : ((s.take (i + 1)).filter
      fun t => decide (r.date - W < t.date ∧ t.date ≤ r.date)) =
      (s.take (i + 1)).filter fun t => decide (r.date - W < t.date) := by
    apply List.filter_congr
    intro t ht
    simp [h1 t ht]
  rw [hdrop, htake, List.append_nil]
  rfl

/-- C1: for every entity series sorted ascending by date and every window
size W in {30, 90, 180}, the window sum of the record at date d equals the
sum of the series' net flows at every date t with d - W < t ≤ d — a
right-closed, left-open calendar-day window, so a record exactly W days
before d is excluded. -/
theorem window_sum_spec (s : List AggRecord) (hs : SortedByDate s) (i : Nat)
    (r : AggRecord) (o : WinRecord) (hr : s[i]? = some r)
    (ho : (windowCalc s)[i]? = some o) (W : Int)
    (hW : W = 30 ∨ W = 90 ∨ W = 180) :
    o.sumW W =
      ((s.filter fun t => r.date - W < t.date ∧ t.date ≤ r.date).map
        (·.net_flow)).sum := by
  rw [windowCalc_getElem?, hr] at ho
  have ho' : mkWin r (s.take (i + 1)) = o := Option.some.inj ho
  subst ho'
  rcases hW with rfl | rfl | rfl
  · simpa [WinRecord.sumW, mkWin] using rollingSumAt_take_eq hs hr 30
  · simpa [WinRecord.sumW, mkWin] using rollingSumAt_take_eq hs hr 90
  · simpa [WinRecord.sumW, mkWin] using rollingSumAt_take_eq hs hr 180

/-- The spec's example series for entity E, with dates as day numbers
relative to 2024-01-01: day 0 = 2024-01-01, day 14 = 2024-01-15,
day 31 = 2024-02-01. -/
def exSeries : List AggRecord :=
  [⟨"E", 0, 100⟩, ⟨"E", 14, 50⟩, ⟨"E", 31, -30⟩]

theorem window_sum_spec_witness :
    SortedByDate exSeries ∧
    ∃ o : WinRecord, (windowCalc exSeries)[2]? = some o ∧
      o.sumW 30 = 20 ∧ o.sumW 90 = 120 ∧ o.sumW 180 = 120 := by
  have hs : SortedByDate exSeries := by decide
  have hr : exSeries[2]? = some ⟨"E", 31, -30⟩ := by decide
  have ho : (windowCalc exSeries)[2]? =
      some (⟨"E", 31, -30, 20, 120, 120⟩ : WinRecord) := by decide
  refine ⟨hs, _, ho, ?_, ?_, ?_⟩
  · exact (window_sum_spec exSeries hs 2 _ _ hr ho 30 (Or.inl rfl)).trans
      (by decide)
  · exact (window_sum_spec exSeries hs 2 _ _ hr ho 90
      (Or.inr (Or.inl rfl))).trans (by decide)
  · exact (window_sum_spec exSeries hs 2 _ _ hr ho 180
      (Or.inr (Or.inr rfl))).trans (by decide)

/-- C9: the first record of a series, with no prior history in any window,
still has all three window sums defined, each equal to its own net flow. -/
theorem first_record_windows (r : AggRecord) (rs : List AggRecord) :
    ∃ rest, windowCalc (r :: rs) =
      ⟨r.entity_id, r.date, r.net_flow, r.net_flow, r.net_flow,
        r.net_flow⟩ :: rest := by
  refine ⟨windowedAux [r] rs, ?_⟩
  have h30 : r.date - 30 < r.date := by omega
  have h90 : r.date - 90 < r.date := by omega
  have h180 : r.date - 180 < r.date := by omega
  simp [windowCalc, windowedAux, mkWin, rollingSumAt, List.filter_cons,
    h30, h90, h180]

theorem rollingSumAt_mono {W W' d : Int} (hWW : W ≤ W')
    {pre : List AggRecord} (h : ∀ t ∈ pre, 0 ≤ t.net_flow) :
    rollingSumAt W d pre ≤ rollingSumAt W' d pre := by
  induction pre with
  | nil => simp [rollingSumAt]
  | cons t ts ih =>
    have hts : ∀ x ∈ ts, 0 ≤ x.net_flow := fun x hx =>
      h x (List.mem_cons_of_mem _ hx)
    have iht := ih hts
    simp only [rollingSumAt, List.filter_cons] at iht ⊢
    by_cases hc : d - W < t.date
    · have hc' : d - W' < t.date := by omega
      rw [if_pos (decide_eq_true hc), if_pos (decide_eq_true hc')]
      simp only [List.map_cons, List.sum_cons]
      exact add_le_add_left iht _
    · by_cases hc' : d - W' < t.date
      · rw [if_neg (by simpa using hc), if_pos (decide_eq_true hc')]
        simp only [List.map_cons, List.sum_cons]
        have ht0 := h t (List.mem_cons_self _ _)
        calc ((ts.filter fun x => d - W < x.date).map (·.net_flow)).sum
            ≤ ((ts.filter fun x => d - W' < x.date).map (·.net_flow)).sum :=
              iht
          _ ≤ t.net_flow +
              ((ts.filter fun x => d - W' < x.date).map (·.net_flow)).sum :=
              by omega
      · rw [if_neg (by simpa using hc), if_neg (by simpa using hc')]
        exact iht

theorem windowedAux_mono (seen s : List AggRecord)
    (hseen : ∀ t ∈ seen, 0 ≤ t.net_flow)
    (hs : ∀ t ∈ s, 0 ≤ t.net_flow) :
    ∀ o ∈ windowedAux seen s, o.sum30 ≤ o.sum90 ∧ o.sum90 ≤ o.sum180 := by
  induction s generalizing seen with
  | nil => simp [windowedAux]
  | cons r rs ih =>
    have hr0 : 0 ≤ r.net_flow := hs r (List.mem_cons_self _ _)
    have hrs : ∀ t ∈ rs, 0 ≤ t.net_flow := fun t ht =>
      hs t (List.mem_cons_of_mem _ ht)
    have hpre : ∀ t ∈ seen ++ [r], 0 ≤ t.net_flow := by
      intro t ht
      rcases List.mem_append.mp ht with h | h
      · exact hseen t h
      · rw [List.mem_singleton] at h
        subst h
        exact hr0
    intro o ho
    rcases List.mem_cons.mp ho with rfl | ho
    · constructor
      · simpa [mkWin] using rollingSumAt_mono (by norm_num) hpre
      · simpa [mkWin] using rollingSumAt_mono (by norm_num) hpre
    · exact ih (seen ++ [r]) hpre hrs o ho

/-- C10: for a series all of whose net flows are non-negative,
sum_180d ≥ sum_90d ≥ sum_30d at every record; and the ordering can fail
when some net flow is negative. -/
theorem window_monotone_nonneg :
    (∀ s : List AggRecord, (∀ t ∈ s, 0 ≤ t.net_flow) →
      ∀ o ∈ windowCalc s, o.sum30 ≤ o.sum90 ∧ o.sum90 ≤ o.sum180) ∧
    (∃ s : List AggRecord, ∃ o ∈ windowCalc s, o.sum90 < o.sum30) := by
  constructor
  · intro s hs
    exact windowedAux_mono [] s (by simp) hs
  · exact ⟨[⟨"E", 0, -100⟩, ⟨"E", 40, 10⟩],
      ⟨"E", 40, 10, 10, -90, -90⟩, by decide, by decide⟩

theorem window_monotone_nonneg_witness :
    (∀ t ∈ ([⟨"P", 0, 1⟩, ⟨"P", 40, 2⟩] : List AggRecord),
      0 ≤ t.net_flow) ∧
    ∀ o ∈ windowCalc [⟨"P", 0, 1⟩, ⟨"P", 40, 2⟩],
      o.sum30 ≤ o.sum90 ∧ o.sum90 ≤ o.sum180 :=
  ⟨by decide, window_monotone_nonneg.1 _ (by decide)⟩

/-- C2: no two rows of the aggregated output share the (entity_id, date)
key. -/
theorem agg_unique_keys (l : List FlowRecord) :
    (df_agg l).Pairwise fun a b =>
      ¬ (a.entity_id = b.entity_id ∧ a.date = b.date) := by
  rw [df_agg, List.pairwise_map]
  refine (sortedKeys_pairwise (l.filterMap keyOf)).imp ?_
  intro a b hab ⟨h1, h2⟩
  exact keyLt_ne hab (Prod.ext_iff.mpr ⟨h1, h2⟩)

/-- C3: for any (entity_id, date) key present in the input, the aggregated
output holds exactly the arithmetic sum of the valid net flows of that key
(invalid flows contribute 0), and a key all of whose records are invalid
still yields one output row with net flow 0. -/
theorem agg_conservation (l : List FlowRecord) (e : String) (d : Int)
    (hk : ∃ r ∈ l, r.entity_id = e ∧ r.date = some d) :
    ((⟨e, d, ((l.filter fun r => r.entity_id = e ∧ r.date = some d).filterMap
        (·.net_flow)).sum⟩ : AggRecord) ∈ df_agg l) ∧
    (∀ a ∈ df_agg l, a.entity_id = e → a.date = d →
      a.net_flow =
        ((l.filter fun r => r.entity_id = e ∧ r.date = some d).filterMap
          (·.net_flow)).sum) ∧
    ((∀ r ∈ l, r.entity_id = e → r.date = some d → r.net_flow = none) →
      (⟨e, d, 0⟩ : AggRecord) ∈ df_agg l) := by
  have hmem : (e, d) ∈ sortedKeys (l.filterMap keyOf) := by
    rw [mem_sortedKeys]
    rcases hk with ⟨r, hrl, h1, h2⟩
    exact List.mem_filterMap.mpr ⟨r, hrl, by simp [keyOf, h1, h2]⟩
  have hmain : (⟨e, d, aggValue l (e, d)⟩ : AggRecord) ∈ df_agg l := by
    rw [df_agg]
    exact List.mem_map.mpr ⟨(e, d), hmem, rfl⟩
  refine ⟨hmain, ?_, ?_⟩
  · intro a ha h1 h2
    rw [df_agg] at ha
    rcases List.mem_map.mp ha with ⟨k, _, hk_eq⟩
    have hk1 : k.1 = e := by rw [← hk_eq] at h1; exact h1
    have hk2 : k.2 = d := by rw [← hk_eq] at h2; exact h2
    rw [← hk_eq]
    show aggValue l k = _
    rw [aggValue, hk1, hk2]
  · intro hinv
    have hnil : ((l.filter fun r => r.entity_id = e ∧ r.date = some d).filterMap
        (·.net_flow)) = [] := by
      rw [List.filterMap_eq_nil_iff]
      intro r hr
      rw [List.mem_filter] at hr
      have hr2 := hr.2
      simp only [decide_eq_true_eq] at hr2
      exact hinv r hr.1 hr2.1 hr2.2
    have hz : aggValue l (e, d) = 0 := by
      rw [aggValue]
      show ((l.filter fun r => r.entity_id = e ∧ r.date = some d).filterMap
        (·.net_flow)).sum = 0
      rw [hnil]
      rfl
    rw [← hz]
    exact hmain

theorem agg_conservation_witness :
    (∃ r ∈ ([⟨"A", some 1, some 5⟩, ⟨"A", some 1, none⟩,
        ⟨"A", some 1, some 7⟩, ⟨"B", some 1, none⟩] : List FlowRecord),
      r.entity_id = "A" ∧ r.date = some 1) ∧
    ((⟨"A", 1, 12⟩ : AggRecord) ∈
      df_agg [⟨"A", some 1, some 5⟩, ⟨"A", some 1, none⟩,
        ⟨"A", some 1, some 7⟩, ⟨"B", some 1, none⟩]) := by
  have h := agg_conservation
    [⟨"A", some 1, some 5⟩, ⟨"A", some 1, none⟩,
      ⟨"A", some 1, some 7⟩, ⟨"B", some 1, none⟩] "A" 1
    ⟨⟨"A", some 1, some 5⟩, by decide, by decide⟩
  refine ⟨⟨⟨"A", some 1, some 5⟩, by decide, by decide⟩, ?_⟩
  have h1 := h.1
  have he : ((([⟨"A", some 1, some 5⟩, ⟨"A", some 1, none⟩,
      ⟨"A", some 1, some 7⟩, ⟨"B", some 1, none⟩] : List FlowRecord).filter
        fun r => r.entity_id = "A" ∧ r.date = some 1).filterMap
          (·.net_flow)).sum = 12 := by decide
  rw [he] at h1
  exact h1

theorem pairwise_filter_single {ks : List (String × Int)} {k : String × Int}
    (hnd : ks.Pairwise keyLt) (hk : k ∈ ks) :
    ks.filter (fun x => x = k) = [k] := by
  induction ks with
  | nil => simp at hk
  | cons a as ih =>
    rw [List.pairwise_cons] at hnd
    rcases List.mem_cons.mp hk with rfl | h
    · have hnil : as.filter (fun x => x = k) = [] := by
        rw [List.filter_eq_nil_iff]
        intro x hx
        simp only [decide_eq_true_eq]
        exact fun he => keyLt_ne (hnd.1 x hx) he.symm
      rw [List.filter_cons, if_pos (decide_eq_true rfl), hnil]
    · have hne : ¬ (a = k) := by
        rintro rfl
        exact keyLt_irrefl a (hnd.1 a h)
      rw [List.filter_cons, if_neg (by simpa using hne)]
      exact ih hnd.2 h

theorem flowmap_keys (m : List (String × Int)) (g : String × Int → Int) :
    ((m.map fun x => (⟨x.1, some x.2, some (g x)⟩ : FlowRecord)).filterMap
      keyOf) = m := by
  induction m with
  | nil => rfl
  | cons a as ih => simp [keyOf, List.filterMap_cons, ih]

theorem filter_key_flowmap (m : List (String × Int)) (g : String × Int → Int)
    (k : String × Int) :
    ((m.map fun x => (⟨x.1, some x.2, some (g x)⟩ : FlowRecord)).filter
      fun r => r.entity_id = k.1 ∧ r.date = some k.2) =
    (m.filter fun x => x = k).map fun x => ⟨x.1, some x.2, some (g x)⟩ := by
  induction m with
  | nil => rfl
  | cons a as ih =>
    simp only [List.map_cons, List.filter_cons]
    by_cases h : a = k
    · subst h
      rw [if_pos (decide_eq_true ⟨rfl, rfl⟩), if_pos (decide_eq_true rfl),
        List.map_cons, ih]
    · have h2 : ¬ (a.1 = k.1 ∧ some a.2 = some k.2) := by
        rintro ⟨h1, h2⟩
        exact h (Prod.ext_iff.mpr ⟨h1, Option.some.inj h2⟩)
      rw [if_neg (by simpa using h2), if_neg (by simpa using h), ih]

/-- C5: the aggregator is idempotent — re-running it on its own output (read
back as raw records) reproduces that output exactly, rows and order
included. -/
theorem agg_idempotent (l : List FlowRecord) :
    df_agg ((df_agg l).map toFlow) = df_agg l := by
  have hpw := sortedKeys_pairwise (l.filterMap keyOf)
  have hmm : (df_agg l).map toFlow =
      (sortedKeys (l.filterMap keyOf)).map
        fun x => (⟨x.1, some x.2, some (aggValue l x)⟩ : FlowRecord) := by
    rw [df_agg, List.map_map]
    rfl
  rw [df_agg, hmm, flowmap_keys, sortedKeys_eq_self hpw, df_agg]
  apply List.map_congr_left
  intro k hk
  simp only [AggRecord.mk.injEq]
  refine ⟨trivial, trivial, ?_⟩
  rw [aggValue, filter_key_flowmap, pairwise_filter_single hpw hk]
  simp

theorem filter_key_aggmap (m : List (String × Int)) (g : String × Int → Int)
    (k : String × Int) :
    ((m.map fun x => (⟨x.1, x.2, g x⟩ : AggRecord)).filter
      fun r => r.entity_id = k.1 ∧ r.date = k.2) =
    (m.filter fun x => x = k).map fun x => ⟨x.1, x.2, g x⟩ := by
  induction m with
  | nil => rfl
  | cons a as ih =>
    simp only [List.map_cons, List.filter_cons]
    by_cases h : a = k
    · subst h
      rw [if_pos (decide_eq_true ⟨rfl, rfl⟩), if_pos (decide_eq_true rfl),
        List.map_cons, ih]
    · have h2 : ¬ (a.1 = k.1 ∧ a.2 = k.2) := by
        rintro ⟨h1, h2⟩
        exact h (Prod.ext_iff.mpr ⟨h1, h2⟩)
      rw [if_neg (by simpa using h2), if_neg (by simpa using h), ih]

theorem filter_single_length_le (ks : List (String × Int))
    (hnd : ks.Pairwise keyLt) (k : String × Int) :
    (ks.filter fun x => x = k).length ≤ 1 := by
  induction ks with
  | nil => simp
  | cons a as ih =>
    rw [List.pairwise_cons] at hnd
    rw [List.filter_cons]
    by_cases h : a = k
    · subst h
      have hnil : as.filter (fun x => x = a) = [] := by
        rw [List.filter_eq_nil_iff]
        intro x hx
        simp only [decide_eq_true_eq]
        exact fun he => keyLt_ne (hnd.1 x hx) he.symm
      rw [if_pos (decide_eq_true rfl), hnil]
      simp
    · rw [if_neg (by simpa using h)]
      exact ih hnd.2

/-- C6: a duplicate key after aggregation is structurally impossible — the
post-aggregation duplicate check counts zero duplicated keys, so the
re-aggregation repair branch never fires and the stage returns its input
unchanged. -/
theorem agg_structurally_dupfree (l : List FlowRecord) :
    n_duplicados (df_agg l) = 0 ∧ validateStage (df_agg l) = df_agg l := by
  have hpw := sortedKeys_pairwise (l.filterMap keyOf)
  have hcount : ∀ k, keyCount (df_agg l) k ≤ 1 := by
    intro k
    rw [keyCount, df_agg, filter_key_aggmap, List.length_map]
    exact filter_single_length_le _ hpw k
  have h0 : n_duplicados (df_agg l) = 0 := by
    rw [n_duplicados, List.length_eq_zero, List.filter_eq_nil_iff]
    intro k _
    simp only [decide_eq_true_eq, not_lt]
    exact hcount k
  refine ⟨h0, ?_⟩
  rw [validateStage, h0]
  simp

/-- C7: a record whose date is missing or unparseable is silently excluded
from aggregation entirely — deleting every null-date record from the input
leaves the aggregated output unchanged, and the stage still succeeds. -/
theorem agg_drops_null_dates (l : List FlowRecord) :
    df_agg l = df_agg (l.filter fun r => r.date.isSome) := by
  have hkeys : (l.filter fun r => r.date.isSome).filterMap keyOf =
      l.filterMap keyOf := by
    induction l with
    | nil => rfl
    | cons r rs ih =>
      cases hd : r.date with
      | none => simp [List.filter_cons, List.filterMap_cons, keyOf, hd, ih]
      | some d => simp [List.filter_cons, List.filterMap_cons, keyOf, hd, ih]
  have hval : ∀ k, aggValue (l.filter fun r => r.date.isSome) k =
      aggValue l k := by
    intro k
    rw [aggValue, aggValue, List.filter_filter]
    congr 2
    apply List.filter_congr
    intro r _
    cases hd : r.date with
    | none => simp [hd]
    | some d => simp [hd]
  rw [df_agg, df_agg, hkeys]
  apply List.map_congr_left
  intro k _
  rw [hval k]

/-- C8: on an empty input collection each core stage returns an empty
collection instead of erroring: the aggregator, the window calculator (per
series and over all funds), and the snapshot selector, whose maximum date is
then NaT. -/
theorem empty_input_stages :
    df_agg [] = [] ∧ windowCalc [] = [] ∧ windowAll [] = [] ∧
    data_maxima [] = none ∧ df_filtrado [] = [] :=
  ⟨rfl, rfl, rfl, rfl, rfl⟩

theorem data_maxima_le (l : List WinRecord) :
    ∀ r ∈ l, ∃ m, data_maxima l = some m ∧ r.date ≤ m := by
  induction l with
  | nil => simp
  | cons a as ih =>
    intro r hr
    rcases List.mem_cons.mp hr with rfl | h
    · cases hm : data_maxima as with
      | none => exact ⟨r.date, by simp [data_maxima, hm], le_refl _⟩
      | some m =>
        exact ⟨max r.date m, by simp [data_maxima, hm], le_max_left _ _⟩
    · rcases ih r h with ⟨m, hm, hle⟩
      exact ⟨max a.date m, by simp [data_maxima, hm],
        le_trans hle (le_max_right _ _)⟩

theorem data_maxima_mem (l : List WinRecord) :
    ∀ m : Int, data_maxima l = some m → ∃ r ∈ l, r.date = m := by
  induction l with
  | nil =>
    intro m h
    simp [data_maxima] at h
  | cons a as ih =>
    intro m h
    cases hm : data_maxima as with
    | none =>
      simp only [data_maxima, hm] at h
      exact ⟨a, List.mem_cons_self _ _, Option.some.inj h⟩
    | some m' =>
      simp only [data_maxima, hm] at h
      have hmx : max a.date m' = m := Option.some.inj h
      rcases max_choice a.date m' with hc | hc
      · exact ⟨a, List.mem_cons_self _ _, hc.symm.trans hmx⟩
      · rcases ih m' hm with ⟨r, hr, hrd⟩
        exact ⟨r, List.mem_cons_of_mem _ hr, hrd.trans (hc.symm.trans hmx)⟩

/-- C4: the snapshot keeps exactly the rows whose date equals the single
global maximum date of the whole windowed collection; that maximum bounds
every row's date and is attained, and a fund whose every row predates some
other row of the collection is entirely absent from the snapshot. -/
theorem snapshot_spec (l : List WinRecord) :
    (∀ r, r ∈ df_filtrado l ↔ r ∈ l ∧ data_maxima l = some r.date) ∧
    (∀ r ∈ l, ∃ m, data_maxima l = some m ∧ r.date ≤ m) ∧
    (∀ m, data_maxima l = some m → ∃ r ∈ l, r.date = m) ∧
    (∀ e, (∀ r ∈ l, r.entity_id = e → ∃ x ∈ l, r.date < x.date) →
      ∀ r ∈ df_filtrado l, r.entity_id ≠ e) := by
  have hmem : ∀ r, r ∈ df_filtrado l ↔
      r ∈ l ∧ data_maxima l = some r.date := by
    intro r
    rw [df_filtrado, List.mem_filter]
    simp
  refine ⟨hmem, data_maxima_le l, data_maxima_mem l, ?_⟩
  intro e he r hr hre
  rcases (hmem r).mp hr with ⟨hrl, hrmax⟩
  rcases he r hrl hre with ⟨x, hxl, hlt⟩
  rcases data_maxima_le l x hxl with ⟨m, hm, hxle⟩
  rw [hrmax] at hm
  have hrm : r.date = m := Option.some.inj hm
  omega

theorem snapshot_spec_witness :
    df_filtrado [⟨"A", 61, 1, 1, 1, 1⟩, ⟨"B", 51, 2, 2, 2, 2⟩] =
      [⟨"A", 61, 1, 1, 1, 1⟩] ∧
    (∀ r ∈ df_filtrado [⟨"A", 61, 1, 1, 1, 1⟩, ⟨"B", 51, 2, 2, 2, 2⟩],
      r.entity_id ≠ "B") :=
  ⟨by decide,
    (snapshot_spec [⟨"A", 61, 1, 1, 1, 1⟩, ⟨"B", 51, 2, 2, 2, 2⟩]).2.2.2 "B"
      (by decide)⟩
